import Mathlib

/-!
A verification development for the pg-core transactional kernel: a
single-node, in-memory MVCC engine with snapshot isolation over a keyed
row store. Each definition below is a shallow embedding of the
corresponding TypeScript source (TIDs are JavaScript numbers used as
counters, embedded as Nat; `xmax: number | null` becomes `Option Nat`;
`Set<number>` carries only membership and minimum here, embedded as
`List Nat`; `Map` iteration order is insertion order, embedded as an
association list).
-/

namespace PgCore

/-- The Snapshot interface (src/transaction/Snapshot): an immutable record
of the visibility horizon taken at BEGIN. -/
structure Snapshot where
  xmin : Nat
  xmax : Nat
  activeTxns : List Nat
  myTxnId : Nat
  deriving Repr, DecidableEq

/-- The VersionedRow interface (src/mvcc/VersionedRow.ts): one stored
version of a row, stamped with its creator `xmin` and, once deleted, its
deleter `xmax`. The payload type is kept abstract. -/
structure VersionedRow (α : Type) where
  key : String
  data : List (String × α)
  xmin : Nat
  xmax : Option Nat
  deriving Repr, DecidableEq

/-- The CommitTable class (src/transaction/CommitTable.ts): two sets
recording the terminal status of transaction ids. -/
structure CommitTable where
  committed : List Nat
  aborted : List Nat
  deriving Repr, DecidableEq

namespace CommitTable

/-- `CommitTable.markCommitted`. A JS `Set.add` is idempotent; membership
through `List.contains` is unaffected by a duplicate, so appending is an
adequate embedding. -/
def markCommitted (ct : CommitTable) (txnId : Nat) : CommitTable :=
  { ct with committed := ct.committed ++ [txnId] }

/-- `CommitTable.markAborted`. -/
def markAborted (ct : CommitTable) (txnId : Nat) : CommitTable :=
  { ct with aborted := ct.aborted ++ [txnId] }

/-- `CommitTable.isCommitted`. -/
def isCommitted (ct : CommitTable) (txnId : Nat) : Bool :=
  ct.committed.contains txnId

/-- `CommitTable.isAborted`. -/
def isAborted (ct : CommitTable) (txnId : Nat) : Bool :=
  ct.aborted.contains txnId

/-- `CommitTable.isInProgress`. -/
def isInProgress (ct : CommitTable) (txnId : Nat) : Bool :=
  !ct.committed.contains txnId && !ct.aborted.contains txnId

end CommitTable

namespace MVCCEngine

/-- `MVCCEngine.isTransactionVisible` (src/unnamed/part_000, lines 66-75;
identical to the instrumented variant at lines 222-272): a transaction is
visible to a snapshot iff it began before the snapshot boundary, was not
active at snapshot time, and committed. -/
def isTransactionVisible (ct : CommitTable) (txnId : Nat) (snapshot : Snapshot) : Bool :=
  if snapshot.xmax ≤ txnId then false
  else if snapshot.activeTxns.contains txnId then false
  else ct.isCommitted txnId

/-- `MVCCEngine.isVisible` (src/unnamed/part_000, lines 42-64; identical
to the instrumented variant at lines 145-220, which is the final revision
of src/mvcc/MVCCEngine.ts): own rows are visible unless self-deleted;
otherwise the creator must be visible and the deleter, if any, must not
be. -/
def isVisible {α : Type} (ct : CommitTable) (row : VersionedRow α) (snapshot : Snapshot) : Bool :=
  if row.xmin = snapshot.myTxnId then
    -- We can see our own inserts unless WE deleted it
    row.xmax ≠ some snapshot.myTxnId
  else if !(isTransactionVisible ct row.xmin snapshot) then false
  else
    match row.xmax with
    | none => true -- Not deleted
    | some d => !(isTransactionVisible ct d snapshot)

/-- `MVCCEngine.canGarbageCollect` (src/unnamed/part_000, lines 77-80, and
src/mvcc/MVCCEngine.ts, lines 43-46, which agree): an undeleted version is
never collectable; a deleted one is collectable iff both stamps are below
the global horizon. -/
def canGarbageCollect {α : Type} (row : VersionedRow α) (globalOldestXmin : Nat) : Bool :=
  match row.xmax with
  | none => false
  | some d => decide (row.xmin < globalOldestXmin) && decide (d < globalOldestXmin)

end MVCCEngine

/-- Lookup in an insertion-ordered association list: the embedding of
`Map.get`. -/
def lookupList {β : Type} : List (String × β) → String → Option β
  | [], _ => none
  | (k, v) :: rest, key => if k = key then some v else lookupList rest key

/-- Update in an insertion-ordered association list: the embedding of
`Map.set` (replace in place when the key is present, append otherwise). -/
def setList {β : Type} : List (String × β) → String → β → List (String × β)
  | [], key, v => [(key, v)]
  | (k, w) :: rest, key, v =>
      if k = key then (k, v) :: rest else (k, w) :: setList rest key v

/-- The embedding of `Array.prototype.findIndex`: index of the first
element satisfying the callback, `none` for -1. -/
def findIndex {β : Type} (p : β → Bool) : List β → Option Nat
  | [] => none
  | x :: xs => if p x then some 0 else (findIndex p xs).map (· + 1)

/-- The `SimpleStorage` class (src/unnamed/part_000, lines 335-395): a
map from key to the insertion-ordered list of row versions. -/
structure SimpleStorage (α : Type) where
  data : List (String × List (VersionedRow α))
  deriving Repr, DecidableEq

namespace SimpleStorage

/-- `SimpleStorage.getAllVersions`. -/
def getAllVersions {α : Type} (s : SimpleStorage α) (key : String) : List (VersionedRow α) :=
  (lookupList s.data key).getD []

/-- `SimpleStorage.getLatestVersion`. -/
def getLatestVersion {α : Type} (s : SimpleStorage α) (key : String) : Option (VersionedRow α) :=
  (s.getAllVersions key).getLast?

/-- `SimpleStorage.getAllKeys`. -/
def getAllKeys {α : Type} (s : SimpleStorage α) : List String :=
  s.data.map Prod.fst

/-- The callback of the `findIndex` call in `SimpleStorage.insert`: a live
version (xmax = null) with the same creator as the incoming tombstone. -/
def replacesLive {α : Type} (row v : VersionedRow α) : Bool :=
  decide (v.xmin = row.xmin) && decide (v.xmax = none)

/-- `SimpleStorage.insert` (src/unnamed/part_000, lines 338-360): a
tombstone replaces, in place, the first live version with the same xmin;
every other row is appended at the end of its key's sequence. -/
def insert {α : Type} (s : SimpleStorage α) (row : VersionedRow α) : SimpleStorage α :=
  let versions := s.getAllVersions row.key
  let newVersions :=
    if row.xmax ≠ none then
      match findIndex (replacesLive row) versions with
      | some i => versions.set i row
      | none => versions ++ [row]
    else versions ++ [row]
  ⟨setList s.data row.key newVersions⟩

end SimpleStorage

/-- The body of `Transaction.addWrite` on the write map: push onto the
per-key list, creating it when absent (`Map.set(key, [])` then `push`). -/
def addWriteList {α : Type} :
    List (String × List (VersionedRow α)) → String → VersionedRow α →
      List (String × List (VersionedRow α))
  | [], key, row => [(key, [row])]
  | (k, rows) :: rest, key, row =>
      if k = key then (k, rows ++ [row]) :: rest
      else (k, rows) :: addWriteList rest key row

/-- The Transaction class (src/transaction/Transaction.ts, lines 36-65):
an id, a frozen snapshot, the pending per-key write lists and the read
set. -/
structure Transaction (α : Type) where
  id : Nat
  snapshot : Snapshot
  writeSet : List (String × List (VersionedRow α))
  readSet : List String
  deriving Repr, DecidableEq

namespace Transaction

/-- `Transaction.addRead`. -/
def addRead {α : Type} (txn : Transaction α) (key : String) : Transaction α :=
  { txn with readSet := txn.readSet ++ [key] }

/-- `Transaction.addWrite`. -/
def addWrite {α : Type} (txn : Transaction α) (key : String) (row : VersionedRow α) :
    Transaction α :=
  { txn with writeSet := addWriteList txn.writeSet key row }

/-- `Transaction.getWrites`. -/
def getWrites {α : Type} (txn : Transaction α) : List (String × List (VersionedRow α)) :=
  txn.writeSet

/-- `Transaction.getReads`. -/
def getReads {α : Type} (txn : Transaction α) : List String :=
  txn.readSet

/-- The write list buffered for one key (`getWrites().get(key)`, empty
when the key has no entry). -/
def writesFor {α : Type} (txn : Transaction α) (key : String) : List (VersionedRow α) :=
  (lookupList txn.writeSet key).getD []

end Transaction

theorem lookupList_addWriteList_self {α : Type}
    (ws : List (String × List (VersionedRow α))) (key : String) (row : VersionedRow α) :
    (lookupList (addWriteList ws key row) key).getD [] =
      (lookupList ws key).getD [] ++ [row] := by
  induction ws with
  | nil => simp [addWriteList, lookupList]
  | cons p rest ih =>
      obtain ⟨pk, rows⟩ := p
      by_cases h : pk = key
      · subst h
        simp [addWriteList, lookupList]
      · simp only [addWriteList, if_neg h, lookupList, ih]

theorem lookupList_addWriteList_ne {α : Type}
    (ws : List (String × List (VersionedRow α))) (key k : String) (row : VersionedRow α)
    (hk : k ≠ key) :
    lookupList (addWriteList ws key row) k = lookupList ws k := by
  induction ws with
  | nil =>
      simp only [addWriteList, lookupList]
      rw [if_neg (fun hh => hk hh.symm)]
  | cons p rest ih =>
      obtain ⟨pk, rows⟩ := p
      by_cases h : pk = key
      · subst h
        simp only [addWriteList, if_pos rfl, lookupList]
        rw [if_neg (fun hh => hk hh.symm), if_neg (fun hh => hk hh.symm)]
      · simp only [addWriteList, if_neg h, lookupList]
        by_cases h2 : pk = k
        · rw [if_pos h2, if_pos h2]
        · rw [if_neg h2, if_neg h2, ih]

theorem writesFor_addWrite_self {α : Type} (txn : Transaction α) (key : String)
    (row : VersionedRow α) :
    (txn.addWrite key row).writesFor key = txn.writesFor key ++ [row] := by
  simp [Transaction.addWrite, Transaction.writesFor, lookupList_addWriteList_self]

theorem writesFor_addWrite_ne {α : Type} (txn : Transaction α) (key k : String)
    (row : VersionedRow α) (hk : k ≠ key) :
    (txn.addWrite key row).writesFor k = txn.writesFor k := by
  simp [Transaction.addWrite, Transaction.writesFor, lookupList_addWriteList_ne _ _ _ _ hk]

/-- The embedding of a spread `Math.min(x, ...xs)` call. -/
def mathMin (x : Nat) (xs : List Nat) : Nat :=
  xs.foldl min x

theorem mathMin_mem (x : Nat) (xs : List Nat) : mathMin x xs ∈ x :: xs := by
  induction xs generalizing x with
  | nil => simp [mathMin]
  | cons y ys ih =>
      have step : mathMin x (y :: ys) = mathMin (min x y) ys := rfl
      rw [step]
      rcases List.mem_cons.mp (ih (min x y)) with h1 | h1
      · rw [h1]
        by_cases hle : x ≤ y
        · rw [min_def, if_pos hle]
          exact List.mem_cons_self _ _
        · rw [min_def, if_neg hle]
          exact List.mem_cons_of_mem _ (List.mem_cons_self _ _)
      · exact List.mem_cons_of_mem _ (List.mem_cons_of_mem _ h1)

theorem mathMin_le (x : Nat) (xs : List Nat) : ∀ y ∈ x :: xs, mathMin x xs ≤ y := by
  induction xs generalizing x with
  | nil =>
      intro y hy
      rw [List.mem_singleton] at hy
      subst hy
      exact Nat.le_refl _
  | cons z zs ih =>
      intro y hy
      have step : mathMin x (z :: zs) = mathMin (min x z) zs := rfl
      rw [step]
      have hmin : mathMin (min x z) zs ≤ min x z :=
        ih (min x z) _ (List.mem_cons_self _ _)
      rcases List.mem_cons.mp hy with h1 | h1
      · rw [h1]
        exact Nat.le_trans hmin (min_le_left _ _)
      · rcases List.mem_cons.mp h1 with h2 | h2
        · rw [h2]
          exact Nat.le_trans hmin (min_le_right _ _)
        · exact ih (min x z) y (List.mem_cons_of_mem _ h2)

/-- The TransactionManager class (src/transaction/TransactionManager.ts,
lines 262-330): the TID counter and the insertion-ordered active table. -/
structure TransactionManager (α : Type) where
  nextTxnId : Nat
  activeTxns : List (Transaction α)
  deriving Repr, DecidableEq

namespace TransactionManager

/-- `TransactionManager.begin` (lines 286-308): draw the next TID, filter
the active ids below it, take their minimum as snapshot xmin (or the new
TID itself), freeze the snapshot, then register the new transaction. -/
def begin {α : Type} (tm : TransactionManager α) :
    Transaction α × TransactionManager α :=
  let txnId := tm.nextTxnId
  let activeBefore := (tm.activeTxns.map Transaction.id).filter (fun i => decide (i < txnId))
  let xmin :=
    match activeBefore with
    | [] => txnId
    | x :: xs => mathMin x xs
  let snapshot : Snapshot := ⟨xmin, txnId, activeBefore, txnId⟩
  let txn : Transaction α := ⟨txnId, snapshot, [], []⟩
  (txn, ⟨txnId + 1, tm.activeTxns ++ [txn]⟩)

/-- `TransactionManager.commit`: drop the transaction from the active
table. -/
def commit {α : Type} (tm : TransactionManager α) (txn : Transaction α) :
    TransactionManager α :=
  { tm with activeTxns := tm.activeTxns.filter (fun t => decide (t.id ≠ txn.id)) }

/-- `TransactionManager.abort`: drop the transaction from the active
table. -/
def abort {α : Type} (tm : TransactionManager α) (txn : Transaction α) :
    TransactionManager α :=
  { tm with activeTxns := tm.activeTxns.filter (fun t => decide (t.id ≠ txn.id)) }

/-- `TransactionManager.getGlobalOldestXmin` (lines 318-325): the counter
when nothing is active, else the least snapshot xmin of the active
transactions. -/
def getGlobalOldestXmin {α : Type} (tm : TransactionManager α) : Nat :=
  match tm.activeTxns with
  | [] => tm.nextTxnId
  | t :: ts => mathMin t.snapshot.xmin (ts.map (fun u => u.snapshot.xmin))

/-- `TransactionManager.getNextTxnId`. -/
def getNextTxnId {α : Type} (tm : TransactionManager α) : Nat :=
  tm.nextTxnId

end TransactionManager

/-- The per-key body of `SimpleStorage.garbageCollect`: keep the versions
that cannot be collected, drop emptied keys, count what was dropped. -/
def garbageCollectList {α : Type} (globalOldestXmin : Nat) :
    List (String × List (VersionedRow α)) → List (String × List (VersionedRow α)) × Nat
  | [] => ([], 0)
  | (k, versions) :: rest =>
      let kept := versions.filter (fun row => !(MVCCEngine.canGarbageCollect row globalOldestXmin))
      let tail := garbageCollectList globalOldestXmin rest
      (if kept.isEmpty then tail.1 else (k, kept) :: tail.1,
       (versions.length - kept.length) + tail.2)

/-- `SimpleStorage.garbageCollect` (src/unnamed/part_000, lines 376-394). -/
def SimpleStorage.garbageCollect {α : Type} (s : SimpleStorage α) (globalOldestXmin : Nat) :
    SimpleStorage α × Nat :=
  let r := garbageCollectList globalOldestXmin s.data
  (⟨r.1⟩, r.2)

/-- One call a client can place against the TransactionManager: begin a
transaction, or commit or abort the transaction with the given id. -/
inductive TMOp where
  | beginTxn : TMOp
  | commitTxn : Nat → TMOp
  | abortTxn : Nat → TMOp
  deriving Repr, DecidableEq

/-- The transaction object a client hands back to `commit`/`abort`; those
methods read nothing but its id. -/
def closedTxn (α : Type) (i : Nat) : Transaction α :=
  ⟨i, ⟨i, i, [], i⟩, [], []⟩

/-- Run a sequence of begin/commit/abort calls against a
TransactionManager, collecting the transactions `begin` hands out, in
program order. -/
def runOps {α : Type} : TransactionManager α → List TMOp → TransactionManager α × List (Transaction α)
  | tm, [] => (tm, [])
  | tm, TMOp.beginTxn :: ops =>
      let p := tm.begin
      let q := runOps p.2 ops
      (q.1, p.1 :: q.2)
  | tm, TMOp.commitTxn i :: ops => runOps (tm.commit (closedTxn α i)) ops
  | tm, TMOp.abortTxn i :: ops => runOps (tm.abort (closedTxn α i)) ops

/-- A freshly constructed TransactionManager: counter at 1, no active
transactions. -/
def initTM (α : Type) : TransactionManager α :=
  ⟨1, []⟩

/-- The snapshot shape claimed for every transaction `begin` returns:
`myTxnId = xmax = id`, self-exclusion, every active id below `xmax`, and
`xmin` the minimum of the active set (or `xmax` when it is empty). -/
def snapshotOK {α : Type} (t : Transaction α) : Prop :=
  t.snapshot.myTxnId = t.id ∧
  t.snapshot.xmax = t.id ∧
  t.id ∉ t.snapshot.activeTxns ∧
  (∀ a ∈ t.snapshot.activeTxns, a < t.snapshot.xmax) ∧
  (t.snapshot.activeTxns = [] → t.snapshot.xmin = t.snapshot.xmax) ∧
  (t.snapshot.activeTxns ≠ [] →
    t.snapshot.xmin ∈ t.snapshot.activeTxns ∧
    ∀ a ∈ t.snapshot.activeTxns, t.snapshot.xmin ≤ a)

/-- The conflict message of `ConflictDetector.detectConflict`. -/
def conflictMessage (key : String) : String :=
  "Write-write conflict on key '" ++ key ++ "'"

/-- The loop of `ConflictDetector.detectConflict`
(src/src/mvcc/ConflictDetector.ts, lines 84-100), over the remaining
write-buffer keys: the first stored version under a written key that was
created by another transaction, whose creator committed, and whose xmin
is at or above the snapshot's xmin, yields the conflict. -/
def detectConflictAux {α : Type} (storage : SimpleStorage α) (ct : CommitTable)
    (txn : Transaction α) : List (String × List (VersionedRow α)) → Option String
  | [] => none
  | (key, _) :: rest =>
      match (storage.getAllVersions key).find? (fun row =>
          !(decide (row.xmin = txn.id)) &&
            (ct.isCommitted row.xmin && decide (txn.snapshot.xmin ≤ row.xmin))) with
      | some _ => some (conflictMessage key)
      | none => detectConflictAux storage ct txn rest

/-- `ConflictDetector.detectConflict` (src/src/mvcc/ConflictDetector.ts,
lines 84-100), the detector bound to the service's storage and commit
table. -/
def ConflictDetector.detectConflict {α : Type} (storage : SimpleStorage α)
    (ct : CommitTable) (txn : Transaction α) : Option String :=
  detectConflictAux storage ct txn txn.getWrites

/-- The error message `update`/`delete` throw when no versions exist. -/
def keyNotFoundMessage (key : String) : String :=
  "Key '" ++ key ++ "' not found"

/-- The error message `update`/`delete` throw when versions exist but none
is visible. -/
def keyNotVisibleMessage (key : String) : String :=
  "Key '" ++ key ++ "' not visible in snapshot"

/-- Whether a JS object (as an association list) has a field, for the
spread embedding. -/
def objHasKey {α : Type} (a : List (String × α)) (k : String) : Bool :=
  a.any (fun p => decide (p.1 = k))

/-- The embedding of the object spread `{ ...a, ...b }`: the fields of `a`
in order with values overridden by `b` where both are present, then the
fields only `b` has, in order. -/
def spreadMerge {α : Type} (a b : List (String × α)) : List (String × α) :=
  a.map (fun p =>
    match lookupList b p.1 with
    | some v => (p.1, v)
    | none => p) ++
  b.filter (fun p => !(objHasKey a p.1))

/-- The DatabaseService class (src/src/db/DatabaseService.ts): the
orchestrator's state is its transaction manager, commit table and row
store (the MVCC engine and conflict detector hold no state of their own
beyond references to these). -/
structure DatabaseService (α : Type) where
  txnManager : TransactionManager α
  commitTable : CommitTable
  storage : SimpleStorage α
  deriving Repr, DecidableEq

namespace DatabaseService

/-- `DatabaseService.begin`: delegate to the TransactionManager. -/
def begin {α : Type} (db : DatabaseService α) : Transaction α × DatabaseService α :=
  let p := db.txnManager.begin
  (p.1, { db with txnManager := p.2 })

/-- `DatabaseService.insert` (lines 45-68): buffer a fresh version; never
fails, touches nothing but the transaction. -/
def insert {α : Type} (db : DatabaseService α) (txn : Transaction α) (key : String)
    (data : List (String × α)) : Transaction α :=
  txn.addWrite key ⟨key, data, txn.id, none⟩

/-- `DatabaseService.update` (lines 71-122): find the first visible
version; buffer its tombstone and the merged new version, in that order.
The returned triple is (service state, transaction, thrown message). -/
def update {α : Type} (db : DatabaseService α) (txn : Transaction α) (key : String)
    (data : List (String × α)) : DatabaseService α × Transaction α × Option String :=
  let versions := db.storage.getAllVersions key
  if versions.isEmpty then (db, txn, some (keyNotFoundMessage key))
  else
    match versions.find? (fun row => MVCCEngine.isVisible db.commitTable row txn.snapshot) with
    | none => (db, txn, some (keyNotVisibleMessage key))
    | some visible =>
        let oldVersionTombstone : VersionedRow α := { visible with xmax := some txn.id }
        let newRow : VersionedRow α := ⟨key, spreadMerge visible.data data, txn.id, none⟩
        (db, (txn.addWrite key oldVersionTombstone).addWrite key newRow, none)

/-- `DatabaseService.delete` (lines 125-167): find the first visible
version; buffer a tombstone that keeps the original xmin and stamps this
transaction as deleter. -/
def delete {α : Type} (db : DatabaseService α) (txn : Transaction α) (key : String) :
    DatabaseService α × Transaction α × Option String :=
  let versions := db.storage.getAllVersions key
  if versions.isEmpty then (db, txn, some (keyNotFoundMessage key))
  else
    match versions.find? (fun row => MVCCEngine.isVisible db.commitTable row txn.snapshot) with
    | none => (db, txn, some (keyNotVisibleMessage key))
    | some visible =>
        let tombstone : VersionedRow α := ⟨key, visible.data, visible.xmin, some txn.id⟩
        (db, txn.addWrite key tombstone, none)

/-- `DatabaseService.abort` (lines 325-341): mark aborted, drop from the
active table. -/
def abort {α : Type} (db : DatabaseService α) (txn : Transaction α) : DatabaseService α :=
  { db with
      commitTable := db.commitTable.markAborted txn.id,
      txnManager := db.txnManager.abort txn }

/-- `DatabaseService.garbageCollect` (lines 344-374). -/
def garbageCollect {α : Type} (db : DatabaseService α) : DatabaseService α × Nat :=
  let r := db.storage.garbageCollect db.txnManager.getGlobalOldestXmin
  ({ db with storage := r.1 }, r.2)

/-- `DatabaseService.commit` (lines 237-322): on a conflict, abort and
surface the reason; otherwise apply the buffered writes in order, mark
committed, leave the active table, garbage collect. -/
def commit {α : Type} (db : DatabaseService α) (txn : Transaction α) :
    DatabaseService α × Option String :=
  match ConflictDetector.detectConflict db.storage db.commitTable txn with
  | some conflict => (db.abort txn, some conflict)
  | none =>
      let storage := txn.getWrites.foldl (fun st p => p.2.foldl SimpleStorage.insert st) db.storage
      let db2 : DatabaseService α :=
        ⟨db.txnManager.commit txn, db.commitTable.markCommitted txn.id, storage⟩
      (db2.garbageCollect.1, none)

end DatabaseService

theorem lookupList_setList_self {β : Type} (l : List (String × β)) (key : String) (v : β) :
    lookupList (setList l key v) key = some v := by
  induction l with
  | nil => simp [setList, lookupList]
  | cons p rest ih =>
      by_cases h : p.1 = key
      · simp [setList, h, lookupList]
      · simp [setList, h, lookupList, ih]

theorem lookupList_setList_ne {β : Type} (l : List (String × β)) (key k : String) (v : β)
    (hk : k ≠ key) : lookupList (setList l key v) k = lookupList l k := by
  induction l with
  | nil =>
      simp only [setList, lookupList]
      rw [if_neg (fun hh => hk hh.symm)]
  | cons p rest ih =>
      obtain ⟨pk, pv⟩ := p
      by_cases h : pk = key
      · subst h
        simp only [setList, if_pos rfl, lookupList]
        rw [if_neg (fun hh => hk hh.symm), if_neg (fun hh => hk hh.symm)]
      · simp only [setList, if_neg h, lookupList]
        by_cases h2 : pk = k
        · rw [if_pos h2, if_pos h2]
        · rw [if_neg h2, if_neg h2, ih]

theorem findIndex_eq_none_iff {β : Type} (p : β → Bool) (l : List β) :
    findIndex p l = none ↔ ∀ x ∈ l, p x = false := by
  induction l with
  | nil => simp [findIndex]
  | cons x xs ih =>
      by_cases h : p x
      · simp [findIndex, h]
      · simp [findIndex, h, ih, Bool.not_eq_true]

theorem findIndex_lt_length {β : Type} (p : β → Bool) (l : List β) (i : Nat)
    (h : findIndex p l = some i) : i < l.length := by
  induction l generalizing i with
  | nil => simp [findIndex] at h
  | cons x xs ih =>
      by_cases hp : p x
      · simp only [findIndex, if_pos hp, Option.some.injEq] at h
        subst h
        simp
      · rw [findIndex, if_neg (by simp [hp]), Option.map_eq_some'] at h
        obtain ⟨j, hj, hji⟩ := h
        have := ih j hj
        simp only [List.length_cons]
        omega

/-- The sequence stored under the inserted row's key, after
`SimpleStorage.insert`. -/
theorem getAllVersions_insert {α : Type} (store : SimpleStorage α) (row : VersionedRow α) :
    (store.insert row).getAllVersions row.key =
      if row.xmax ≠ none then
        match findIndex (SimpleStorage.replacesLive row) (store.getAllVersions row.key) with
        | some i => (store.getAllVersions row.key).set i row
        | none => store.getAllVersions row.key ++ [row]
      else store.getAllVersions row.key ++ [row] := by
  simp only [SimpleStorage.insert]
  simp [SimpleStorage.getAllVersions, lookupList_setList_self]

/-- C7: `SimpleStorage.insert` replaces, in place, the first live version
with the incoming tombstone's xmin when there is one (same length, same
entries elsewhere); in every other case it appends at the end of the
key's sequence. -/
theorem insert_replaces_live_or_appends {α : Type} (store : SimpleStorage α)
    (row : VersionedRow α) :
    ((∃ v ∈ store.getAllVersions row.key, v.xmin = row.xmin ∧ v.xmax = none) ↔
      findIndex (SimpleStorage.replacesLive row) (store.getAllVersions row.key) ≠ none) ∧
    (row.xmax = none →
      (store.insert row).getAllVersions row.key = store.getAllVersions row.key ++ [row]) ∧
    (row.xmax ≠ none →
      (findIndex (SimpleStorage.replacesLive row) (store.getAllVersions row.key) = none →
        (store.insert row).getAllVersions row.key = store.getAllVersions row.key ++ [row]) ∧
      (∀ i, findIndex (SimpleStorage.replacesLive row) (store.getAllVersions row.key) = some i →
        (store.insert row).getAllVersions row.key = (store.getAllVersions row.key).set i row ∧
        ((store.getAllVersions row.key).set i row).length =
          (store.getAllVersions row.key).length ∧
        (∀ j, j ≠ i → ((store.getAllVersions row.key).set i row)[j]? =
          (store.getAllVersions row.key)[j]?) ∧
        ((store.getAllVersions row.key).set i row)[i]? = some row)) := by
  refine ⟨?_, ?_, ?_⟩
  · rw [Ne, findIndex_eq_none_iff]
    constructor
    · rintro ⟨v, hv, h1, h2⟩ hall
      have := hall v hv
      simp [SimpleStorage.replacesLive, h1, h2] at this
    · intro h
      by_contra hno
      push_neg at hno
      apply h
      intro x hx
      simp only [SimpleStorage.replacesLive, Bool.and_eq_false_iff, decide_eq_false_iff_not]
      by_cases h1 : x.xmin = row.xmin
      · exact Or.inr (hno x hx h1)
      · exact Or.inl h1
  · intro hx
    rw [getAllVersions_insert, if_neg (by simp [hx])]
  · intro hx
    constructor
    · intro hnone
      rw [getAllVersions_insert, if_pos hx, hnone]
    · intro i hi
      have hlt := findIndex_lt_length _ _ _ hi
      refine ⟨?_, by simp, ?_, ?_⟩
      · rw [getAllVersions_insert, if_pos hx, hi]
      · intro j hj
        exact List.getElem?_set_ne (fun h => hj h.symm)
      · exact List.getElem?_set_self hlt

/-- Witness for C7: a tombstone for xmin = 2 overwrites the live version
with xmin = 2 in place; a fresh insert is appended at the end. -/
theorem insert_replaces_live_or_appends_witness :
    (SimpleStorage.insert ⟨[("k", [⟨"k", [], 1, some 4⟩, ⟨"k", [], 2, none⟩])]⟩
        (⟨"k", ([] : List (String × Nat)), 2, some 5⟩)).getAllVersions "k" =
      [⟨"k", [], 1, some 4⟩, ⟨"k", [], 2, some 5⟩] ∧
    (SimpleStorage.insert ⟨[("k", [⟨"k", [], 1, some 4⟩, ⟨"k", [], 2, none⟩])]⟩
        (⟨"k", ([] : List (String × Nat)), 7, none⟩)).getAllVersions "k" =
      [⟨"k", [], 1, some 4⟩, ⟨"k", [], 2, none⟩, ⟨"k", [], 7, none⟩] := by
  constructor
  · have h := ((insert_replaces_live_or_appends
      (⟨[("k", [⟨"k", [], 1, some 4⟩, ⟨"k", [], 2, none⟩])]⟩ : SimpleStorage Nat)
      ⟨"k", [], 2, some 5⟩).2.2 (by decide)).2 1 (by decide)
    exact h.1.trans (by decide)
  · exact (insert_replaces_live_or_appends
      (⟨[("k", [⟨"k", [], 1, some 4⟩, ⟨"k", [], 2, none⟩])]⟩ : SimpleStorage Nat)
      ⟨"k", [], 7, none⟩).2.1 rfl

/-- C6: with an empty active table, `getGlobalOldestXmin` is the counter;
otherwise it is the least snapshot xmin over the active transactions (an
element of their snapshot xmins and a lower bound for them). -/
theorem getGlobalOldestXmin_spec {α : Type} (tm : TransactionManager α) :
    (tm.activeTxns = [] → tm.getGlobalOldestXmin = tm.nextTxnId) ∧
    (tm.activeTxns ≠ [] →
      tm.getGlobalOldestXmin ∈ tm.activeTxns.map (fun t => t.snapshot.xmin) ∧
      ∀ t ∈ tm.activeTxns, tm.getGlobalOldestXmin ≤ t.snapshot.xmin) := by
  obtain ⟨n, act⟩ := tm
  cases act with
  | nil =>
      refine ⟨fun _ => rfl, fun h => absurd rfl h⟩
  | cons t ts =>
      refine ⟨fun h => by simp at h, fun _ => ⟨?_, ?_⟩⟩
      · have h := mathMin_mem t.snapshot.xmin (ts.map (fun u => u.snapshot.xmin))
        simpa [TransactionManager.getGlobalOldestXmin] using h
      · intro u hu
        show mathMin t.snapshot.xmin (ts.map (fun u => u.snapshot.xmin)) ≤ u.snapshot.xmin
        apply mathMin_le
        rcases List.mem_cons.mp hu with h1 | h1
        · rw [h1]
          exact List.mem_cons_self _ _
        · exact List.mem_cons_of_mem _ (List.mem_map_of_mem _ h1)

/-- Witness for C6: an idle manager returns its counter; one with active
transactions of ids 5 and 6 but snapshot xmins 3 and 2 returns a snapshot
xmin (2), not an id. -/
theorem getGlobalOldestXmin_spec_witness :
    (⟨9, ([] : List (Transaction Nat))⟩ : TransactionManager Nat).getGlobalOldestXmin = 9 ∧
    (⟨7, [⟨5, ⟨3, 5, [], 5⟩, [], []⟩, ⟨6, ⟨2, 6, [], 6⟩, [], []⟩]⟩ :
        TransactionManager Nat).getGlobalOldestXmin ∈ [(3 : Nat), 2] ∧
    (⟨7, [⟨5, ⟨3, 5, [], 5⟩, [], []⟩, ⟨6, ⟨2, 6, [], 6⟩, [], []⟩]⟩ :
        TransactionManager Nat).getGlobalOldestXmin ≤ 2 := by
  refine ⟨?_, ?_, ?_⟩
  · exact (getGlobalOldestXmin_spec _).1 rfl
  · have h := (getGlobalOldestXmin_spec (⟨7, [⟨5, ⟨3, 5, [], 5⟩, [], []⟩,
      ⟨6, ⟨2, 6, [], 6⟩, [], []⟩]⟩ : TransactionManager Nat)).2 (by simp)
    simpa using h.1
  · have h := (getGlobalOldestXmin_spec (⟨7, [⟨5, ⟨3, 5, [], 5⟩, [], []⟩,
      ⟨6, ⟨2, 6, [], 6⟩, [], []⟩]⟩ : TransactionManager Nat)).2 (by simp)
    exact h.2 ⟨6, ⟨2, 6, [], 6⟩, [], []⟩ (by simp)

theorem begin_txn_ok {α : Type} (tm : TransactionManager α) :
    snapshotOK tm.begin.1 ∧ tm.begin.1.id = tm.nextTxnId ∧
    tm.begin.2.nextTxnId = tm.nextTxnId + 1 ∧
    tm.begin.2.activeTxns = tm.activeTxns ++ [tm.begin.1] := by
  obtain ⟨n, act⟩ := tm
  have hfilter : ∀ a ∈ (act.map Transaction.id).filter (fun i => decide (i < n)), a < n := by
    intro a ha
    have := (List.mem_filter.mp ha).2
    simpa using this
  have hAeq : (⟨n, act⟩ : TransactionManager α).begin.1.snapshot.activeTxns
      = (act.map Transaction.id).filter (fun i => decide (i < n)) := rfl
  refine ⟨⟨rfl, rfl, ?_, ?_, ?_, ?_⟩, rfl, rfl, rfl⟩
  · intro hmem
    rw [hAeq] at hmem
    exact absurd (hfilter _ hmem) (Nat.lt_irrefl n)
  · intro a ha
    rw [hAeq] at ha
    exact hfilter a ha
  · intro hnil
    rw [hAeq] at hnil
    show (match (act.map Transaction.id).filter (fun i => decide (i < n)) with
      | [] => n
      | x :: xs => mathMin x xs) = n
    rw [hnil]
  · intro hne
    rw [hAeq] at hne
    rcases hA : (act.map Transaction.id).filter (fun i => decide (i < n)) with _ | ⟨x, xs⟩
    · exact absurd hA hne
    · have hstep : (⟨n, act⟩ : TransactionManager α).begin.1.snapshot.xmin = mathMin x xs := by
        show (match (act.map Transaction.id).filter (fun i => decide (i < n)) with
          | [] => n
          | x :: xs => mathMin x xs) = mathMin x xs
        rw [hA]
      constructor
      · rw [hAeq, hstep, hA]
        exact mathMin_mem x xs
      · intro a ha
        rw [hAeq, hA] at ha
        rw [hstep]
        exact mathMin_le x xs a ha

theorem runOps_collects {α : Type} (ops : List TMOp) (tm : TransactionManager α)
    (hinv : ∀ t ∈ tm.activeTxns, t.id < tm.nextTxnId) :
    (∀ t ∈ (runOps tm ops).2, snapshotOK t ∧ tm.nextTxnId ≤ t.id) ∧
    ((runOps tm ops).2.map Transaction.id).Pairwise (· < ·) := by
  induction ops generalizing tm with
  | nil => simp [runOps]
  | cons op rest ih =>
      cases op with
      | beginTxn =>
          obtain ⟨hOK, hid, hnext, hact⟩ := begin_txn_ok tm
          have hinv2 : ∀ t ∈ tm.begin.2.activeTxns, t.id < tm.begin.2.nextTxnId := by
            intro t ht
            rw [hact] at ht
            rw [hnext]
            rcases List.mem_append.mp ht with h1 | h1
            · exact Nat.lt_succ_of_lt (hinv t h1)
            · rw [List.mem_singleton.mp h1, hid]
              exact Nat.lt_succ_self _
          obtain ⟨ihall, ihpair⟩ := ih tm.begin.2 hinv2
          constructor
          · intro t ht
            rcases List.mem_cons.mp ht with h1 | h1
            · rw [h1]
              exact ⟨hOK, hid ▸ Nat.le_refl _⟩
            · have := ihall t h1
              rw [hnext] at this
              exact ⟨this.1, Nat.le_of_succ_le this.2⟩
          · show (Transaction.id tm.begin.1 :: (runOps tm.begin.2 rest).2.map Transaction.id).Pairwise (· < ·)
            rw [List.pairwise_cons]
            refine ⟨?_, ihpair⟩
            intro a ha
            obtain ⟨u, hu, hua⟩ := List.mem_map.mp ha
            have := (ihall u hu).2
            rw [hnext] at this
            rw [hid, ← hua]
            exact Nat.lt_of_succ_le this
      | commitTxn i =>
          have hinv2 : ∀ t ∈ (tm.commit (closedTxn α i)).activeTxns,
              t.id < (tm.commit (closedTxn α i)).nextTxnId := by
            intro t ht
            exact hinv t (List.mem_of_mem_filter ht)
          simpa [runOps] using ih (tm.commit (closedTxn α i)) hinv2
      | abortTxn i =>
          have hinv2 : ∀ t ∈ (tm.abort (closedTxn α i)).activeTxns,
              t.id < (tm.abort (closedTxn α i)).nextTxnId := by
            intro t ht
            exact hinv t (List.mem_of_mem_filter ht)
          simpa [runOps] using ih (tm.abort (closedTxn α i)) hinv2

/-- C10: along any sequence of begin/commit/abort calls on one
TransactionManager, the transactions begin hands out carry strictly
increasing ids, and each one's snapshot has `myTxnId = xmax = id`,
excludes its own id, holds only ids below `xmax`, and has `xmin` the
minimum of its active set (or `xmax` when the set is empty). -/
theorem runOps_monotone_and_snapshots_ok (α : Type) (ops : List TMOp) :
    ((runOps (initTM α) ops).2.map Transaction.id).Pairwise (· < ·) ∧
    ∀ t ∈ (runOps (initTM α) ops).2, snapshotOK t := by
  have h := runOps_collects ops (initTM α) (by intro t ht; simp [initTM] at ht)
  exact ⟨h.2, fun t ht => (h.1 t ht).1⟩

/-- The conflict condition of the detector, as a proposition: a stored
version under the key, by another transaction, committed, with xmin at or
above the snapshot's xmin. -/
def conflictsAt {α : Type} (storage : SimpleStorage α) (ct : CommitTable)
    (txn : Transaction α) (key : String) : Prop :=
  ∃ row ∈ storage.getAllVersions key,
    row.xmin ≠ txn.id ∧ ct.isCommitted row.xmin = true ∧ txn.snapshot.xmin ≤ row.xmin

theorem conflict_pred_iff {α : Type} (ct : CommitTable) (txn : Transaction α)
    (row : VersionedRow α) :
    (!(decide (row.xmin = txn.id)) &&
        (ct.isCommitted row.xmin && decide (txn.snapshot.xmin ≤ row.xmin))) = true ↔
      row.xmin ≠ txn.id ∧ ct.isCommitted row.xmin = true ∧ txn.snapshot.xmin ≤ row.xmin := by
  simp [Bool.and_eq_true]

theorem detectConflictAux_spec {α : Type} (storage : SimpleStorage α) (ct : CommitTable)
    (txn : Transaction α) (ws : List (String × List (VersionedRow α))) :
    ((detectConflictAux storage ct txn ws ≠ none) ↔
      ∃ key ∈ ws.map Prod.fst, conflictsAt storage ct txn key) ∧
    (∀ r, detectConflictAux storage ct txn ws = some r →
      ∃ key, key ∈ ws.map Prod.fst ∧ conflictsAt storage ct txn key ∧
        r = conflictMessage key) := by
  induction ws with
  | nil => simp [detectConflictAux]
  | cons p rest ih =>
      obtain ⟨key, rows⟩ := p
      cases hfind : (storage.getAllVersions key).find? (fun row =>
          !(decide (row.xmin = txn.id)) &&
            (ct.isCommitted row.xmin && decide (txn.snapshot.xmin ≤ row.xmin))) with
      | some row0 =>
          have hrow : conflictsAt storage ct txn key := by
            refine ⟨row0, List.mem_of_find?_eq_some hfind, ?_⟩
            have hp := List.find?_some hfind
            exact (conflict_pred_iff ct txn row0).mp hp
          have hstep : detectConflictAux storage ct txn ((key, rows) :: rest) =
              some (conflictMessage key) := by
            simp only [detectConflictAux, hfind]
          constructor
          · rw [hstep]
            simp only [ne_eq, reduceCtorEq, not_false_eq_true, true_iff]
            exact ⟨key, by simp, hrow⟩
          · intro r hr
            rw [hstep, Option.some.injEq] at hr
            exact ⟨key, by simp, hrow, hr.symm⟩
      | none =>
          have hnokey : ¬ conflictsAt storage ct txn key := by
            rintro ⟨row, hmem, hprop⟩
            have := List.find?_eq_none.mp hfind row hmem
            exact this ((conflict_pred_iff ct txn row).mpr hprop)
          have hstep : detectConflictAux storage ct txn ((key, rows) :: rest) =
              detectConflictAux storage ct txn rest := by
            simp only [detectConflictAux, hfind]
          rw [hstep]
          constructor
          · rw [ih.1]
            constructor
            · rintro ⟨k, hk, hc⟩
              exact ⟨k, by simp [hk], hc⟩
            · rintro ⟨k, hk, hc⟩
              rw [List.map_cons] at hk
              rcases List.mem_cons.mp hk with h1 | h1
              · exact absurd hc (h1 ▸ hnokey)
              · exact ⟨k, h1, hc⟩
          · intro r hr
            obtain ⟨k, hk, hc, hmsg⟩ := ih.2 r hr
            exact ⟨k, by simp [hk], hc, hmsg⟩

/-- C3: the detector reports a conflict exactly when some written key has
a stored version by another, committed transaction with xmin at or above
the snapshot's xmin, and the reported reason names such a key in the text
Write-write conflict on key. -/
theorem detectConflict_spec {α : Type} (storage : SimpleStorage α) (ct : CommitTable)
    (txn : Transaction α) :
    ((ConflictDetector.detectConflict storage ct txn ≠ none) ↔
      ∃ key ∈ txn.getWrites.map Prod.fst, ∃ row ∈ storage.getAllVersions key,
        row.xmin ≠ txn.id ∧ ct.isCommitted row.xmin = true ∧ txn.snapshot.xmin ≤ row.xmin) ∧
    (∀ r, ConflictDetector.detectConflict storage ct txn = some r →
      ∃ key, key ∈ txn.getWrites.map Prod.fst ∧
        (∃ row ∈ storage.getAllVersions key,
          row.xmin ≠ txn.id ∧ ct.isCommitted row.xmin = true ∧
            txn.snapshot.xmin ≤ row.xmin) ∧
        r = "Write-write conflict on key '" ++ key ++ "'") := by
  have h := detectConflictAux_spec storage ct txn txn.getWrites
  exact ⟨h.1, h.2⟩

/-- Witness for C3: a transaction with snapshot xmin 2 that wrote key k
conflicts with a stored committed version of k created by txn 3, and the
reason is the exact conflict string; with an empty store it reports
nothing. -/
theorem detectConflict_spec_witness :
    (ConflictDetector.detectConflict
        (⟨[("k", [⟨"k", [], 3, none⟩])]⟩ : SimpleStorage Nat) ⟨[3], []⟩
        ⟨4, ⟨2, 4, [], 4⟩, [("k", [⟨"k", [], 4, none⟩])], []⟩ ≠ none) ∧
    (∃ key, key ∈ ([("k", [(⟨"k", [], 4, none⟩ : VersionedRow Nat)])].map Prod.fst) ∧
      (∃ row ∈ (⟨[("k", [⟨"k", [], 3, none⟩])]⟩ : SimpleStorage Nat).getAllVersions key,
        row.xmin ≠ 4 ∧ CommitTable.isCommitted ⟨[3], []⟩ row.xmin = true ∧ 2 ≤ row.xmin) ∧
      "Write-write conflict on key 'k'" = "Write-write conflict on key '" ++ key ++ "'") := by
  constructor
  · exact (detectConflict_spec (⟨[("k", [⟨"k", [], 3, none⟩])]⟩ : SimpleStorage Nat)
      ⟨[3], []⟩ ⟨4, ⟨2, 4, [], 4⟩, [("k", [⟨"k", [], 4, none⟩])], []⟩).1.mpr
      ⟨"k", by decide, ⟨"k", [], 3, none⟩, by decide, by decide, by decide, by decide⟩
  · exact (detectConflict_spec (⟨[("k", [⟨"k", [], 3, none⟩])]⟩ : SimpleStorage Nat)
      ⟨[3], []⟩ ⟨4, ⟨2, 4, [], 4⟩, [("k", [⟨"k", [], 4, none⟩])], []⟩).2
      "Write-write conflict on key 'k'" (by decide)

theorem lookupList_append {β : Type} (xs ys : List (String × β)) (f : String) :
    lookupList (xs ++ ys) f =
      match lookupList xs f with
      | some v => some v
      | none => lookupList ys f := by
  induction xs with
  | nil => simp [lookupList]
  | cons p rest ih =>
      obtain ⟨k, w⟩ := p
      by_cases hk : k = f
      · simp [lookupList, hk]
      · simp only [List.cons_append, lookupList, if_neg hk]
        exact ih

theorem lookupList_spreadMap {α : Type} (a b : List (String × α)) (f : String) :
    lookupList (a.map (fun p =>
        match lookupList b p.1 with
        | some v => (p.1, v)
        | none => p)) f =
      match lookupList a f with
      | none => none
      | some w =>
          some (match lookupList b f with
            | some v => v
            | none => w) := by
  induction a with
  | nil => rfl
  | cons p rest ih =>
      obtain ⟨k, w⟩ := p
      by_cases hk : k = f
      · subst hk
        cases hb : lookupList b k with
        | none => simp [lookupList, hb]
        | some v => simp [lookupList, hb]
      · cases hb : lookupList b k with
        | none => simp only [List.map_cons, hb, lookupList, if_neg hk, ih]
        | some v => simp only [List.map_cons, hb, lookupList, if_neg hk, ih]

theorem objHasKey_eq_false_iff {α : Type} (a : List (String × α)) (f : String) :
    objHasKey a f = false ↔ lookupList a f = none := by
  induction a with
  | nil => simp [objHasKey, lookupList]
  | cons p rest ih =>
      obtain ⟨k, w⟩ := p
      by_cases hk : k = f
      · simp [objHasKey, lookupList, hk]
      · simp only [objHasKey, List.any_cons, lookupList, if_neg hk, Bool.or_eq_false_iff,
          decide_eq_false_iff_not]
        rw [← ih]
        simp [objHasKey, hk]

theorem lookupList_filter_keep {α : Type} (a b : List (String × α)) (f : String)
    (hf : objHasKey a f = false) :
    lookupList (b.filter (fun p => !(objHasKey a p.1))) f = lookupList b f := by
  induction b with
  | nil => rfl
  | cons p rest ih =>
      obtain ⟨k, w⟩ := p
      by_cases hk : k = f
      · subst hk
        simp [List.filter_cons, hf, lookupList]
      · cases hq : objHasKey a k with
        | false => simp only [List.filter_cons, hq, Bool.not_false, if_pos rfl,
            lookupList, if_neg hk, ih]
        | true =>
            simp only [List.filter_cons, hq, Bool.not_true, Bool.false_eq_true, if_false, ih]
            simp [lookupList, if_neg hk]

theorem lookupList_filter_none {α : Type} (b : List (String × α)) (q : String × α → Bool)
    (f : String) (h : lookupList b f = none) :
    lookupList (b.filter q) f = none := by
  induction b with
  | nil => rfl
  | cons p rest ih =>
      obtain ⟨k, w⟩ := p
      by_cases hk : k = f
      · rw [lookupList, if_pos hk] at h
        exact absurd h (by simp)
      · rw [lookupList, if_neg hk] at h
        cases hq : q (k, w) with
        | false => simp only [List.filter_cons, hq, Bool.false_eq_true, if_false]
                   exact ih h
        | true =>
            simp only [List.filter_cons, hq, if_pos rfl, lookupList, if_neg hk]
            exact ih h

/-- Right bias of the spread embedding: a field present in the overlay
keeps the overlay's value. -/
theorem lookupList_spreadMerge_right {α : Type} (a b : List (String × α)) (f : String)
    (v : α) (h : lookupList b f = some v) :
    lookupList (spreadMerge a b) f = some v := by
  rw [spreadMerge, lookupList_append, lookupList_spreadMap]
  cases ha : lookupList a f with
  | some w => rw [h]
  | none =>
      have hf : objHasKey a f = false := (objHasKey_eq_false_iff a f).mpr ha
      rw [lookupList_filter_keep a b f hf, h]

/-- Left fallback of the spread embedding: a field absent from the overlay
keeps the base object's value. -/
theorem lookupList_spreadMerge_left {α : Type} (a b : List (String × α)) (f : String)
    (h : lookupList b f = none) :
    lookupList (spreadMerge a b) f = lookupList a f := by
  rw [spreadMerge, lookupList_append, lookupList_spreadMap]
  cases ha : lookupList a f with
  | some w => rw [h]
  | none => exact lookupList_filter_none b _ f h

/-- C8: a successful update buffers exactly two more rows under the key,
in order: the first visible stored version copied with `xmax := txn.id`,
then the new version carrying the right-biased shallow merge of the
visible payload with the update's payload, stamped `xmin = txn.id`,
`xmax = null`; buffered writes under other keys are untouched. -/
theorem update_buffers_tombstone_then_merge {α : Type} (db : DatabaseService α)
    (txn : Transaction α) (key : String) (data : List (String × α))
    (db2 : DatabaseService α) (txn2 : Transaction α)
    (h : db.update txn key data = (db2, txn2, none)) :
    ∃ visible, (db.storage.getAllVersions key).find?
        (fun row => MVCCEngine.isVisible db.commitTable row txn.snapshot) = some visible ∧
      txn2.writesFor key = txn.writesFor key ++
        [{ visible with xmax := some txn.id },
         ⟨key, spreadMerge visible.data data, txn.id, none⟩] ∧
      (∀ k, k ≠ key → txn2.writesFor k = txn.writesFor k) ∧
      txn2.id = txn.id ∧ txn2.snapshot = txn.snapshot ∧ db2 = db ∧
      (∀ f v, lookupList data f = some v →
        lookupList (spreadMerge visible.data data) f = some v) ∧
      (∀ f, lookupList data f = none →
        lookupList (spreadMerge visible.data data) f = lookupList visible.data f) := by
  by_cases hemp : (db.storage.getAllVersions key).isEmpty
  · rw [DatabaseService.update] at h
    simp only [hemp, if_pos, Prod.mk.injEq] at h
    exact absurd h.2.2 (by simp)
  · cases hfind : (db.storage.getAllVersions key).find?
        (fun row => MVCCEngine.isVisible db.commitTable row txn.snapshot) with
    | none =>
        rw [DatabaseService.update] at h
        simp only [hemp, Bool.false_eq_true, if_false, hfind, Prod.mk.injEq] at h
        exact absurd h.2.2 (by simp)
    | some visible =>
        rw [DatabaseService.update] at h
        simp only [hemp, Bool.false_eq_true, if_false, hfind, Prod.mk.injEq] at h
        obtain ⟨hdb, htxn, -⟩ := h
        refine ⟨visible, rfl, ?_, ?_, ?_, ?_, hdb.symm, ?_, ?_⟩
        · rw [← htxn, writesFor_addWrite_self, writesFor_addWrite_self, List.append_assoc]
          rfl
        · intro k hk
          rw [← htxn, writesFor_addWrite_ne _ _ _ _ hk, writesFor_addWrite_ne _ _ _ _ hk]
        · rw [← htxn]
          rfl
        · rw [← htxn]
          rfl
        · intro f v hf
          exact lookupList_spreadMerge_right visible.data data f v hf
        · intro f hf
          exact lookupList_spreadMerge_left visible.data data f hf

/-- Witness for C8: updating key k (stored value by committed txn 1,
payload a=1, b=2) with payload b=9 inside txn 2 buffers the tombstone of
the stored version and then the merged version a=1, b=9. -/
theorem update_buffers_tombstone_then_merge_witness :
    ((⟨⟨3, []⟩, ⟨[1], []⟩, ⟨[("k", [⟨"k", [("a", 1), ("b", 2)], 1, none⟩])]⟩⟩ :
        DatabaseService Nat).update ⟨2, ⟨2, 2, [], 2⟩, [], []⟩ "k" [("b", 9)]).2.1.writesFor "k" =
      [⟨"k", [("a", 1), ("b", 2)], 1, some 2⟩,
       ⟨"k", spreadMerge [("a", 1), ("b", 2)] [("b", 9)], 2, none⟩] ∧
    lookupList (spreadMerge [("a", (1 : Nat)), ("b", 2)] [("b", 9)]) "b" = some 9 ∧
    lookupList (spreadMerge [("a", (1 : Nat)), ("b", 2)] [("b", 9)]) "a" = some 1 := by
  have h := update_buffers_tombstone_then_merge
    (⟨⟨3, []⟩, ⟨[1], []⟩, ⟨[("k", [⟨"k", [("a", 1), ("b", 2)], 1, none⟩])]⟩⟩ :
      DatabaseService Nat) ⟨2, ⟨2, 2, [], 2⟩, [], []⟩ "k" [("b", 9)]
    (⟨⟨3, []⟩, ⟨[1], []⟩, ⟨[("k", [⟨"k", [("a", 1), ("b", 2)], 1, none⟩])]⟩⟩ :
      DatabaseService Nat)
    ((⟨⟨3, []⟩, ⟨[1], []⟩, ⟨[("k", [⟨"k", [("a", 1), ("b", 2)], 1, none⟩])]⟩⟩ :
      DatabaseService Nat).update ⟨2, ⟨2, 2, [], 2⟩, [], []⟩ "k" [("b", 9)]).2.1
    (by decide)
  obtain ⟨visible, hfind, hbuf, -, -, -, -, hr, hl⟩ := h
  have hvis : visible = ⟨"k", [("a", 1), ("b", 2)], 1, none⟩ := by
    apply Option.some.inj
    rw [← hfind]
    decide
  subst hvis
  refine ⟨?_, ?_, ?_⟩
  · rw [hbuf]
    decide
  · exact hr "b" 9 (by decide)
  · exact (hl "a" (by decide)).trans (by decide)

theorem length_keyNotFoundMessage (key : String) :
    (keyNotFoundMessage key).length = key.length + 16 := by
  simp only [keyNotFoundMessage, String.length_append]
  rw [show ("Key '" : String).length = 5 from rfl,
    show ("' not found" : String).length = 11 from rfl]
  omega

theorem length_keyNotVisibleMessage (key : String) :
    (keyNotVisibleMessage key).length = key.length + 30 := by
  simp only [keyNotVisibleMessage, String.length_append]
  rw [show ("Key '" : String).length = 5 from rfl,
    show ("' not visible in snapshot" : String).length = 25 from rfl]
  omega

theorem keyNotFoundMessage_ne (key : String) :
    keyNotFoundMessage key ≠ keyNotVisibleMessage key := by
  intro h
  have := congrArg String.length h
  rw [length_keyNotFoundMessage, length_keyNotVisibleMessage] at this
  omega

/-- The shared failure skeleton of `DatabaseService.update` and
`DatabaseService.delete`: not-found exactly on an empty version list,
not-visible exactly when versions exist but none is visible, and on either
failure nothing changes. -/
theorem failure_core {α : Type} (db : DatabaseService α) (txn : Transaction α) (key : String)
    (success : VersionedRow α → DatabaseService α × Transaction α × Option String)
    (hsucc : ∀ v, (success v).2.2 = none)
    (res : DatabaseService α × Transaction α × Option String)
    (hres : res =
      (if (db.storage.getAllVersions key).isEmpty then (db, txn, some (keyNotFoundMessage key))
       else
        match (db.storage.getAllVersions key).find?
            (fun row => MVCCEngine.isVisible db.commitTable row txn.snapshot) with
        | none => (db, txn, some (keyNotVisibleMessage key))
        | some visible => success visible)) :
    (res.2.2 = some (keyNotFoundMessage key) ↔ db.storage.getAllVersions key = []) ∧
    (res.2.2 = some (keyNotVisibleMessage key) ↔
      (db.storage.getAllVersions key ≠ [] ∧
        ∀ row ∈ db.storage.getAllVersions key,
          MVCCEngine.isVisible db.commitTable row txn.snapshot = false)) ∧
    (∀ e, res.2.2 = some e → res.1 = db ∧ res.2.1 = txn) := by
  by_cases hemp : (db.storage.getAllVersions key).isEmpty
  · rw [if_pos hemp] at hres
    subst hres
    have hnil : db.storage.getAllVersions key = [] := by
      simpa [List.isEmpty_iff] using hemp
    refine ⟨by simp [hnil], ?_, fun e _ => ⟨rfl, rfl⟩⟩
    constructor
    · intro hmsg
      exact absurd (Option.some.inj hmsg) (keyNotFoundMessage_ne key)
    · rintro ⟨hne, -⟩
      exact absurd hnil hne
  · have hne : db.storage.getAllVersions key ≠ [] := by
      simpa [List.isEmpty_iff] using hemp
    rw [if_neg hemp] at hres
    cases hfind : (db.storage.getAllVersions key).find?
        (fun row => MVCCEngine.isVisible db.commitTable row txn.snapshot) with
    | none =>
        rw [hfind] at hres
        subst hres
        refine ⟨?_, ?_, fun e _ => ⟨rfl, rfl⟩⟩
        · constructor
          · intro hmsg
            exact absurd (Option.some.inj hmsg).symm (keyNotFoundMessage_ne key)
          · intro hnil
            exact absurd hnil hne
        · constructor
          · intro _
            refine ⟨hne, ?_⟩
            intro row hrow
            have := List.find?_eq_none.mp hfind row hrow
            simpa using this
          · intro _
            rfl
    | some visible =>
        rw [hfind] at hres
        subst hres
        have hnone := hsucc visible
        refine ⟨?_, ?_, ?_⟩
        · rw [hnone]
          simp only [reduceCtorEq, false_iff]
          intro hnil
          exact hne hnil
        · rw [hnone]
          simp only [reduceCtorEq, false_iff]
          rintro ⟨-, hall⟩
          have hmem := List.mem_of_find?_eq_some hfind
          have hvis := List.find?_some hfind
          rw [hall visible hmem] at hvis
          exact Bool.false_ne_true hvis
        · intro e he
          rw [hnone] at he
          exact absurd he (by simp)

/-- C9: update and delete fail with the not-found message exactly when no
versions exist under the key, and with the not-visible message exactly
when versions exist but none is visible to the snapshot; on either
failure the service state (row store, commit registry, active table) and
the transaction (write buffer, read set) are unchanged. -/
theorem update_delete_failure_modes {α : Type} (db : DatabaseService α) (txn : Transaction α)
    (key : String) (data : List (String × α)) :
    ((db.update txn key data).2.2 = some (keyNotFoundMessage key) ↔
      db.storage.getAllVersions key = []) ∧
    ((db.update txn key data).2.2 = some (keyNotVisibleMessage key) ↔
      (db.storage.getAllVersions key ≠ [] ∧
        ∀ row ∈ db.storage.getAllVersions key,
          MVCCEngine.isVisible db.commitTable row txn.snapshot = false)) ∧
    (∀ e, (db.update txn key data).2.2 = some e →
      (db.update txn key data).1 = db ∧ (db.update txn key data).2.1 = txn) ∧
    ((db.delete txn key).2.2 = some (keyNotFoundMessage key) ↔
      db.storage.getAllVersions key = []) ∧
    ((db.delete txn key).2.2 = some (keyNotVisibleMessage key) ↔
      (db.storage.getAllVersions key ≠ [] ∧
        ∀ row ∈ db.storage.getAllVersions key,
          MVCCEngine.isVisible db.commitTable row txn.snapshot = false)) ∧
    (∀ e, (db.delete txn key).2.2 = some e →
      (db.delete txn key).1 = db ∧ (db.delete txn key).2.1 = txn) := by
  have hu := failure_core db txn key
    (fun visible => (db,
      (txn.addWrite key { visible with xmax := some txn.id }).addWrite key
        ⟨key, spreadMerge visible.data data, txn.id, none⟩, none))
    (fun v => rfl) (db.update txn key data) rfl
  have hd := failure_core db txn key
    (fun visible => (db, txn.addWrite key ⟨key, visible.data, visible.xmin, some txn.id⟩, none))
    (fun v => rfl) (db.delete txn key) rfl
  exact ⟨hu.1, hu.2.1, hu.2.2, hd.1, hd.2.1, hd.2.2⟩

/-- Witness for C9: against a store holding only key k (a committed
version by txn 1 and an uncommitted one by txn 5), txn 2 gets not-found
for key m, not-visible for k when k's versions are invisible to it, and
its state is untouched. -/
theorem update_delete_failure_modes_witness :
    ((⟨⟨3, []⟩, ⟨[], []⟩, ⟨[("k", [⟨"k", [], 5, none⟩])]⟩⟩ :
        DatabaseService Nat).update ⟨2, ⟨2, 2, [], 2⟩, [], []⟩ "m" []).2.2 =
      some (keyNotFoundMessage "m") ∧
    ((⟨⟨3, []⟩, ⟨[], []⟩, ⟨[("k", [⟨"k", [], 5, none⟩])]⟩⟩ :
        DatabaseService Nat).delete ⟨2, ⟨2, 2, [], 2⟩, [], []⟩ "k").2.2 =
      some (keyNotVisibleMessage "k") ∧
    ((⟨⟨3, []⟩, ⟨[], []⟩, ⟨[("k", [⟨"k", [], 5, none⟩])]⟩⟩ :
        DatabaseService Nat).delete ⟨2, ⟨2, 2, [], 2⟩, [], []⟩ "k").2.1 =
      ⟨2, ⟨2, 2, [], 2⟩, [], []⟩ := by
  have hu := update_delete_failure_modes
    (⟨⟨3, []⟩, ⟨[], []⟩, ⟨[("k", [⟨"k", [], 5, none⟩])]⟩⟩ : DatabaseService Nat)
    ⟨2, ⟨2, 2, [], 2⟩, [], []⟩ "m" []
  have hd := update_delete_failure_modes
    (⟨⟨3, []⟩, ⟨[], []⟩, ⟨[("k", [⟨"k", [], 5, none⟩])]⟩⟩ : DatabaseService Nat)
    ⟨2, ⟨2, 2, [], 2⟩, [], []⟩ "k" []
  have h1 := hu.1.mpr (by decide)
  have h2 := hd.2.2.2.2.1.mpr ⟨by decide, by decide⟩
  refine ⟨h1, h2, ?_⟩
  exact (hd.2.2.2.2.2 (keyNotVisibleMessage "k") h2).2

/-- C4: when the detector reports a reason, commit aborts the transaction
(marks it aborted, drops it from the active table), writes nothing to the
row store, never marks it committed, and surfaces the reason, a message
starting with Write-write conflict. -/
theorem commit_conflict_aborts {α : Type} (db : DatabaseService α) (txn : Transaction α)
    (r : String)
    (h : ConflictDetector.detectConflict db.storage db.commitTable txn = some r) :
    (db.commit txn).2 = some r ∧
    (db.commit txn).1.storage = db.storage ∧
    (db.commit txn).1.commitTable.committed = db.commitTable.committed ∧
    txn.id ∈ (db.commit txn).1.commitTable.aborted ∧
    (∀ t ∈ (db.commit txn).1.txnManager.activeTxns, t.id ≠ txn.id) ∧
    ∃ tail, r = "Write-write conflict" ++ tail := by
  have hstep : db.commit txn = (db.abort txn, some r) := by
    simp only [DatabaseService.commit, h]
  rw [hstep]
  refine ⟨rfl, rfl, rfl, ?_, ?_, ?_⟩
  · simp [DatabaseService.abort, CommitTable.markAborted]
  · intro t ht
    have := (List.mem_filter.mp ht).2
    simpa using this
  · obtain ⟨key, _, _, hmsg⟩ :=
      (detectConflictAux_spec db.storage db.commitTable txn txn.getWrites).2 r h
    refine ⟨" on key '" ++ key ++ "'", ?_⟩
    rw [hmsg]
    show ("Write-write conflict on key '" ++ key) ++ "'" = _
    rw [show ("Write-write conflict on key '" : String) =
      "Write-write conflict" ++ " on key '" from by decide]
    rw [String.append_assoc "Write-write conflict" " on key '" key]
    rw [String.append_assoc "Write-write conflict" (" on key '" ++ key) "'"]

/-- Witness for C4: a concrete conflicting commit surfaces the conflict
string and leaves txn 4 aborted. -/
theorem commit_conflict_aborts_witness :
    ((⟨⟨5, []⟩, ⟨[3], []⟩, ⟨[("k", [⟨"k", [], 3, none⟩])]⟩⟩ : DatabaseService Nat).commit
        ⟨4, ⟨2, 4, [], 4⟩, [("k", [⟨"k", [], 4, none⟩])], []⟩).2 =
      some "Write-write conflict on key 'k'" ∧
    4 ∈ ((⟨⟨5, []⟩, ⟨[3], []⟩, ⟨[("k", [⟨"k", [], 3, none⟩])]⟩⟩ : DatabaseService Nat).commit
        ⟨4, ⟨2, 4, [], 4⟩, [("k", [⟨"k", [], 4, none⟩])], []⟩).1.commitTable.aborted := by
  have h := commit_conflict_aborts
    (⟨⟨5, []⟩, ⟨[3], []⟩, ⟨[("k", [⟨"k", [], 3, none⟩])]⟩⟩ : DatabaseService Nat)
    ⟨4, ⟨2, 4, [], 4⟩, [("k", [⟨"k", [], 4, none⟩])], []⟩
    "Write-write conflict on key 'k'" (by decide)
  exact ⟨h.1, h.2.2.2.1⟩

/-- Witness for C10: after begin, begin, commit of txn 1, begin, the third
transaction handed out is txn 3 with snapshot xmin 2, xmax 3, active set
containing exactly txn 2 - and that snapshot satisfies every clause. -/
theorem runOps_monotone_and_snapshots_ok_witness :
    snapshotOK (⟨3, ⟨2, 3, [2], 3⟩, [], []⟩ : Transaction Nat) :=
  (runOps_monotone_and_snapshots_ok Nat
    [TMOp.beginTxn, TMOp.beginTxn, TMOp.commitTxn 1, TMOp.beginTxn]).2
    ⟨3, ⟨2, 3, [2], 3⟩, [], []⟩ (by decide)

end PgCore

namespace PgCore

/-- C1: a row the snapshot's own transaction created is visible exactly
when that same transaction has not deleted it; in particular a row with
`xmin = xmax = myTxnId` is invisible. -/
theorem isVisible_own_insert_iff_not_own_delete {α : Type} (ct : CommitTable)
    (row : VersionedRow α) (snapshot : Snapshot)
    (h : row.xmin = snapshot.myTxnId) :
    (MVCCEngine.isVisible ct row snapshot = true ↔ row.xmax ≠ some snapshot.myTxnId) ∧
    (row.xmax = some snapshot.myTxnId → MVCCEngine.isVisible ct row snapshot = false) := by
  constructor
  · simp [MVCCEngine.isVisible, h]
  · intro hx
    simp [MVCCEngine.isVisible, h, hx]

/-- Witness for C1: evaluated on a concrete self-created, self-deleted row
and on a concrete self-created, undeleted row. -/
theorem isVisible_own_insert_iff_not_own_delete_witness :
    MVCCEngine.isVisible ⟨[], []⟩ (⟨"k", ([] : List (String × Nat)), 7, some 7⟩) ⟨7, 7, [], 7⟩ = false ∧
    MVCCEngine.isVisible ⟨[], []⟩ (⟨"k", ([] : List (String × Nat)), 7, none⟩) ⟨7, 7, [], 7⟩ = true := by
  constructor
  · exact (isVisible_own_insert_iff_not_own_delete ⟨[], []⟩ ⟨"k", [], 7, some 7⟩ ⟨7, 7, [], 7⟩ rfl).2 rfl
  · exact (isVisible_own_insert_iff_not_own_delete ⟨[], []⟩ ⟨"k", [], 7, none⟩ ⟨7, 7, [], 7⟩ rfl).1.mpr (by decide)

/-- C2: a row created by another transaction that is in the snapshot's
active set is invisible, whatever the commit registry says about the
creator and however the creator's id compares to the snapshot boundary. -/
theorem isVisible_active_creator_invisible {α : Type} (ct : CommitTable)
    (row : VersionedRow α) (snapshot : Snapshot)
    (hne : row.xmin ≠ snapshot.myTxnId)
    (hmem : row.xmin ∈ snapshot.activeTxns) :
    MVCCEngine.isVisible ct row snapshot = false := by
  have hvis : MVCCEngine.isTransactionVisible ct row.xmin snapshot = false := by
    unfold MVCCEngine.isTransactionVisible
    by_cases hge : snapshot.xmax ≤ row.xmin
    · simp [hge]
    · simp only [if_neg hge, List.elem_eq_true_of_mem hmem, if_pos]
  simp [MVCCEngine.isVisible, hne, hvis]

/-- Witness for C2: a creator with TID below the snapshot boundary, marked
committed in the registry, yet in the active set, is still invisible. -/
theorem isVisible_active_creator_invisible_witness :
    MVCCEngine.isVisible ⟨[3], []⟩ (⟨"k", ([] : List (String × Nat)), 3, none⟩) ⟨1, 5, [3], 2⟩ = false :=
  isVisible_active_creator_invisible ⟨[3], []⟩ ⟨"k", [], 3, none⟩ ⟨1, 5, [3], 2⟩ (by decide) (by decide)

/-- C5: `canGarbageCollect` holds exactly when the row is deleted and both
stamps are below the horizon; equivalently it fails whenever the row is
undeleted, or `xmin` is at or above the horizon, or `xmax` is. -/
theorem canGarbageCollect_iff {α : Type} (row : VersionedRow α) (oldestXmin : Nat) :
    (MVCCEngine.canGarbageCollect row oldestXmin = true ↔
      ∃ d, row.xmax = some d ∧ row.xmin < oldestXmin ∧ d < oldestXmin) ∧
    (row.xmax = none → MVCCEngine.canGarbageCollect row oldestXmin = false) ∧
    (oldestXmin ≤ row.xmin → MVCCEngine.canGarbageCollect row oldestXmin = false) ∧
    (∀ d, row.xmax = some d → oldestXmin ≤ d →
      MVCCEngine.canGarbageCollect row oldestXmin = false) := by
  refine ⟨?_, ?_, ?_, ?_⟩
  · cases hx : row.xmax with
    | none => simp [MVCCEngine.canGarbageCollect, hx]
    | some d => simp [MVCCEngine.canGarbageCollect, hx]
  · intro hx; simp [MVCCEngine.canGarbageCollect, hx]
  · intro hge
    cases hx : row.xmax with
    | none => simp [MVCCEngine.canGarbageCollect, hx]
    | some d => simp [MVCCEngine.canGarbageCollect, hx, Nat.not_lt.mpr hge]
  · intro d hx hge
    simp [MVCCEngine.canGarbageCollect, hx, Nat.not_lt.mpr hge]

/-- Witness for C5: evaluated at a deleted row below the horizon, an
undeleted row, and deleted rows with a stamp at the horizon. -/
theorem canGarbageCollect_iff_witness :
    MVCCEngine.canGarbageCollect (⟨"k", ([] : List (String × Nat)), 1, some 2⟩) 5 = true ∧
    MVCCEngine.canGarbageCollect (⟨"k", ([] : List (String × Nat)), 1, none⟩) 5 = false ∧
    MVCCEngine.canGarbageCollect (⟨"k", ([] : List (String × Nat)), 5, some 6⟩) 5 = false ∧
    MVCCEngine.canGarbageCollect (⟨"k", ([] : List (String × Nat)), 1, some 5⟩) 5 = false := by
  refine ⟨?_, ?_, ?_, ?_⟩
  · exact (canGarbageCollect_iff (⟨"k", [], 1, some 2⟩ : VersionedRow Nat) 5).1.mpr
      ⟨2, rfl, by decide, by decide⟩
  · exact (canGarbageCollect_iff (⟨"k", [], 1, none⟩ : VersionedRow Nat) 5).2.1 rfl
  · exact (canGarbageCollect_iff (⟨"k", [], 5, some 6⟩ : VersionedRow Nat) 5).2.2.1 (by decide)
  · exact (canGarbageCollect_iff (⟨"k", [], 1, some 5⟩ : VersionedRow Nat) 5).2.2.2 5 rfl (by decide)

end PgCore
